import Mathlib

/-
Verification of the tensor-function layer of the Walnut / Compyute
automatic-differentiation library.

The library operates on N-dimensional arrays, but every operation studied
here (padding, dilation, convolution, pooling, linear and embedding
gradients, softmax) acts only on the trailing one or two axes, mapping
uniformly over all leading axes, or on a fixed small rank.  We therefore
embed tensors as `List ℚ` (one trailing axis), `List (List ℚ)` (two
trailing axes) and `List (List (List ℚ))` (rank three), with exact
rational arithmetic standing for the float arithmetic of the host arrays.
Python slices, strided assignment and `numpy`-style reshapes are spelled
out element by element; `Option` models operations that raise.

The file lists all definitions first and all theorems second.
-/

abbrev Mat : Type := List (List ℚ)

abbrev Mat3 : Type := List (List (List ℚ))

/-- Entry accessor with zero default, the shape-safe reading of `A[i][j]`. -/
def ent (A : Mat) (i j : ℕ) : ℚ := (A.getD i []).getD j 0

/-- Entry accessor for a rank-3 tensor, `T[b][i][j]`. -/
def ent3 (T : Mat3) (b i j : ℕ) : ℚ := ((T.getD b []).getD i []).getD j 0

/-- `A` is a well-formed `n × m` matrix. -/
def IsRect (A : Mat) (n m : ℕ) : Prop :=
  A.length = n ∧ ∀ i, i < n → (A.getD i []).length = m

/-- `T` is a well-formed `a × b × c` rank-3 tensor. -/
def IsCube (T : Mat3) (a b c : ℕ) : Prop :=
  T.length = a ∧ ∀ i, i < a → IsRect (T.getD i []) b c

instance (A : Mat) (n m : ℕ) : Decidable (IsRect A n m) := by
  unfold IsRect; infer_instance

instance (T : Mat3) (a b c : ℕ) : Decidable (IsCube T a b c) := by
  unfold IsCube; infer_instance

/-- Python strided slice `l[::s]`: the elements at indices `0, s, 2s, …`. -/
def strided (l : List ℚ) (s : ℕ) : List ℚ :=
  (List.range ((l.length + s - 1) / s)).map fun i => l.getD (i * s) 0

/-- Forward of `FPad1D` / `__pad1d`: zero padding of the last axis,
with the explicit `(0, 0)` no-op short circuit of the source. -/
def pad1d (x : List ℚ) (padding : ℕ × ℕ) : List ℚ :=
  if padding = (0, 0) then x
  else List.replicate padding.1 0 ++ x ++ List.replicate padding.2 0

/-- Backward of `FPad1D`: the source computes `dy[..., padding[0] : -padding[0]]`,
a Python slice whose stop is `-padding[0]` (which is `0`, the empty slice,
when `padding[0] = 0`), after the `(0, 0)` no-op short circuit. -/
def pad1d_backward (padding : ℕ × ℕ) (dy : List ℚ) : List ℚ :=
  if padding = (0, 0) then dy
  else (dy.take (if padding.1 = 0 then 0 else dy.length - padding.1)).drop padding.1

/-- Forward of `FDilation1D` / `__dilate1d`: a zero tensor of trailing length
`dilation * n - 1` whose strided slice `[::dilation]` is assigned `x`,
with the `dilation = 1` no-op short circuit of the source.  The
zeros-then-strided-assignment is spelled entrywise: index `i` holds
`x[i / dilation]` when `dilation ∣ i` and `0` otherwise. -/
def dilate1d (x : List ℚ) (dilation : ℕ) : List ℚ :=
  if dilation = 1 then x
  else (List.range (dilation * x.length - 1)).map fun i =>
    if i % dilation = 0 then x.getD (i / dilation) 0 else 0

/-- Backward of `FDilation1D`: the strided slice `dy[..., ::dilation]`,
with the `dilation = 1` no-op short circuit of the source. -/
def dilate1d_backward (dilation : ℕ) (dy : List ℚ) : List ℚ :=
  if dilation = 1 then dy else strided dy dilation

/-- Forward of `FDilation2D`: per-axis dilation of the two trailing axes, a
zero tensor of shape `(d₁ * h - 1, d₂ * w - 1)` whose strided slice
`[::d₁, ::d₂]` is assigned `x`, with the `(1, 1)` no-op short circuit. -/
def dilate2d (x : Mat) (d : ℕ × ℕ) : Mat :=
  if d = (1, 1) then x
  else (List.range (d.1 * x.length - 1)).map fun i =>
    (List.range (d.2 * (x.headD []).length - 1)).map fun j =>
      if i % d.1 = 0 ∧ j % d.2 = 0 then ent x (i / d.1) (j / d.2) else 0

inductive PadMode where | causal | full | same | valid
deriving DecidableEq

/-- Padding-mode presets of `__pad1d_from_str`. -/
def pad1d_from_str (padding : PadMode) (kernel_size : ℕ) : ℕ × ℕ :=
  match padding with
  | .causal => (kernel_size - 1, 0)
  | .full => (kernel_size - 1, kernel_size - 1)
  | .same => (kernel_size / 2, kernel_size / 2)
  | .valid => (0, 0)

/-- Modelled from the spec: the FFT pipeline of `__convolve1d`
(forward FFT of `x`, forward FFT of `f` zero-extended to the length of
`x`, pointwise multiply, inverse FFT, real part) computes the circular
convolution of `x` with the zero-extended `f`; the FFT primitives
themselves are external to the repository.  Entry `j` is
`∑ i, x[i] * f[(j - i) mod L]`, out-of-range reads of `f` being the
zero extension. -/
def circConv (x f : List ℚ) : List ℚ :=
  (List.range x.length).map fun j =>
    ((List.range x.length).map fun i =>
      x.getD i 0 * f.getD ((j + x.length - i) % x.length) 0).sum

/-- Raw 1D convolution `__convolve1d`: circular convolution, then the
Python slice `conv[-(|x| - |f| + 1):]` keeping the valid region (equal to
dropping the first `|f| - 1` entries when `1 ≤ |f| ≤ |x|`), then the
strided slice `[::stride]`. -/
def convolve1d_raw (x f : List ℚ) (stride : ℕ) : List ℚ :=
  strided ((circConv x f).drop (f.length - 1)) stride

/-- Composite `convolve1d` of `functional.py`: dilates the filter when
`dilation > 1`, pads the input unless the padding mode is `valid`, and
calls the raw convolution. -/
def convolve1d (x f : List ℚ) (padding : PadMode) (stride dilation : ℕ) :
    List ℚ :=
  let f2 := if 1 < dilation then dilate1d f dilation else f
  let x2 := if padding = PadMode.valid then x
    else pad1d x (pad1d_from_str padding f2.length)
  convolve1d_raw x2 f2 stride

/-- Modelled from the spec: numpy-style `repeat` along one axis, repeating
each element of the list `n` times in place. -/
def repeatElems {α : Type} (l : List α) (n : ℕ) : List α :=
  (l.map fun v => List.replicate n v).flatten

/-- Modelled from the spec: `pad_to_shape` zero-fills a tensor at the end
of each of the two trailing axes up to the target shape; a target smaller
than the tensor is an error. -/
def padToShape (x : Mat) (s : ℕ × ℕ) : Option Mat :=
  if x.length ≤ s.1 ∧ ∀ r ∈ x, r.length ≤ s.2 then
    some ((x.map fun r => r ++ List.replicate (s.2 - r.length) 0)
      ++ List.replicate (s.1 - x.length) (List.replicate s.2 0))
  else none

/-- Repetition step of `FUpsample2D.forward`: exactly as written in the
source, the first scaling factor repeats elements along the last axis and
the second along the second-to-last axis
(`repeat(repeat(x, f1, -1), f2, -2)`). -/
def upsample2d_rep (x : Mat) (sf : ℕ × ℕ) : Mat :=
  repeatElems (x.map fun r => repeatElems r sf.1) sf.2

/-- Upsample `FUpsample2D.forward`: repeat along both trailing axes, then
zero-pad to the target shape when the result does not already match it. -/
def upsample2d (x : Mat) (sf : ℕ × ℕ) (s : ℕ × ℕ) : Option Mat :=
  if ((upsample2d_rep x sf).length, ((upsample2d_rep x sf).headD []).length) = s
  then some (upsample2d_rep x sf)
  else padToShape (upsample2d_rep x sf) s

/-- Maximum along the last axis, as the reduction the tensor primitive
performs on a nonempty axis. -/
def listMax (l : List ℚ) : ℚ :=
  match l with
  | [] => 0
  | a :: t => t.foldl max a

/-- Window of a pooled input.  The numpy reshape of the truncated input
into `(H / Kh, Kh, W / Kw, Kw)` blocks puts truncated-input entry
`(i * Kh + a, j * Kw + b)` at block `(i, j)`, position `(a, b)` (row-major
reshape identity, the truncated width being `(W / Kw) * Kw`), so window
`(i, j)` collects exactly these entries; for `i < H / Kh`, `j < W / Kw`
they lie inside the truncated region, where the truncated input agrees
with the input. -/
def windowVals (x : Mat) (k : ℕ × ℕ) (i j : ℕ) : List ℚ :=
  ((List.range k.1).map fun a =>
    (List.range k.2).map fun b => ent x (i * k.1 + a) (j * k.2 + b)).flatten

/-- Max pooling forward `FMaxPooling2D.forward`: truncate the trailing
axes to multiples of the kernel, reshape into windows, reduce by max. -/
def maxpooling2d (x : Mat) (k : ℕ × ℕ) : Mat :=
  (List.range (x.length / k.1)).map fun i =>
    (List.range ((x.headD []).length / k.2)).map fun j =>
      listMax (windowVals x k i j)

/-- Average pooling forward `FAvgPooling2D.forward`: as max pooling, with
a mean reduction (sum divided by the window area) over each window. -/
def avgpooling2d (x : Mat) (k : ℕ × ℕ) : Mat :=
  (List.range (x.length / k.1)).map fun i =>
    (List.range ((x.headD []).length / k.2)).map fun j =>
      (windowVals x k i j).sum / (k.1 * k.2 : ℚ)

/-- Max pooling backward `FMaxPooling2D.backward`: upsample the cached
forward output and compare elementwise with the input to get the argmax
mask, upsample the incoming gradient to the input shape, and multiply the
two (spelled entrywise over the input shape, which both upsampled tensors
share). -/
def maxpooling2d_backward (x : Mat) (k : ℕ × ℕ) (dy : Mat) : Option Mat :=
  match upsample2d (maxpooling2d x k) k (x.length, (x.headD []).length),
      upsample2d dy k (x.length, (x.headD []).length) with
  | some yups, some dyups =>
      some ((List.range x.length).map fun r =>
        (List.range (x.headD []).length).map fun c =>
          if ent x r c = ent yups r c then ent dyups r c else 0)
  | _, _ => none

/-- Average pooling backward `FAvgPooling2D.backward`: upsample the
incoming gradient to the cached input shape and divide by the window
area. -/
def avgpooling2d_backward (xshape : ℕ × ℕ) (k : ℕ × ℕ) (dy : Mat) :
    Option Mat :=
  (upsample2d dy k xshape).map fun M =>
    M.map fun r => r.map fun v => v / (k.1 * k.2 : ℚ)

/-- Softmax of `functional.py` along the last axis: subtract the axis
maximum, apply the elementwise exponential (an external tensor primitive,
kept abstract as `e`), and normalize by the axis sum. -/
def softmax (e : ℚ → ℚ) (x : List ℚ) : List ℚ :=
  let ex := x.map fun v => e (v - listMax x)
  ex.map fun v => v / ex.sum

/-- Temperature softmax of `functional.py`: raises a value error on
temperature 0, otherwise divides the shifted input by the temperature
before the elementwise exponential. -/
def temperature_softmax (e : ℚ → ℚ) (x : List ℚ) (temperature : ℚ) :
    Option (List ℚ) :=
  if temperature = 0 then none
  else some (
    let ex := x.map fun v => e ((v - listMax x) / temperature)
    ex.map fun v => v / ex.sum)

/-- Dot product of two vectors, the elementwise multiply and sum behind
one output entry of a matrix product. -/
def dot (u v : List ℚ) : ℚ := (List.zipWith (fun a b => a * b) u v).sum

/-- Modelled from the spec: the tensor transpose `.T` swaps the two
trailing axes (the shape comments of `linear` document this behaviour);
for a rectangular matrix this is the matrix transpose. -/
def mtranspose (A : Mat) : Mat :=
  (List.range (A.headD []).length).map fun j => A.map fun r => r.getD j 0

/-- Modelled from the spec: the matrix product `A @ B` of the tensor
primitive, entry `(i, j)` being the dot product of row `i` of `A` with
column `j` of `B`. -/
def matMul (A B : Mat) : Mat :=
  A.map fun r => (mtranspose B).map fun c => dot r c

/-- Elementwise sum of two matrices, the accumulation step of a reduction
over the leading axis. -/
def matAdd (A B : Mat) : Mat := List.zipWith (List.zipWith (· + ·)) A B

/-- Modelled from the spec: `sum(axis=0)` over the (nonempty) leading
axis of a rank-3 tensor. -/
def sumMats (L : Mat3) : Mat :=
  match L with
  | [] => []
  | M :: Ms => Ms.foldl matAdd M

/-- Elementwise sum of two vectors. -/
def vecAdd (u v : List ℚ) : List ℚ := List.zipWith (· + ·) u v

/-- Modelled from the spec: the sum of a (nonempty) stack of vectors,
reducing away all leading axes. -/
def sumRows (L : Mat) : List ℚ :=
  match L with
  | [] => []
  | v :: vs => vs.foldl vecAdd v

/-- Backward of `linear` in `functional.py`, for a rank-3 input
`x : (B1, B2, Cin)`, weight `w : (Cout, Cin)` and incoming gradient
`dy : (B1, B2, Cout)`: `dx = dy @ w` (the 2D weight broadcasting over the
leading axis); when the weight requires a gradient, `dw = dy.T @ x`
(transpose of the two trailing axes, batched matmul over the leading
axis) summed over `axes = range(x.ndim - 2) = (0,)`; when a bias is
present and requires a gradient, `db = dy` summed over
`axes = range(x.ndim - 1) = (0, 1)`; a gradient not requested is the
absent value `None`. -/
def linear_backward (x : Mat3) (w : Mat) (w_req b_present b_req : Bool)
    (dy : Mat3) : Mat3 × Option Mat × Option (List ℚ) :=
  (dy.map fun m => matMul m w,
   if w_req then some (sumMats (List.zipWith matMul (dy.map mtranspose) x))
   else none,
   if b_present && b_req then some (sumRows dy.flatten) else none)

/-- Specification of the input gradient, following the claim:
`dx = dy @ w` entrywise, of the shape of `x`. -/
def linear_dx_spec (dy : Mat3) (w : Mat) (B1 B2 Ci Co : ℕ) : Mat3 :=
  (List.range B1).map fun b1 => (List.range B2).map fun b2 =>
    (List.range Ci).map fun i =>
      ∑ o ∈ Finset.range Co, ent3 dy b1 b2 o * ent w o i

/-- Specification of the weight gradient, following the claim: entry
`(o, i)` accumulates `dy[b1][b2][o] * x[b1][b2][i]` over both batch axes,
so the shape is `(Cout, Cin)`. -/
def linear_dw_spec (x dy : Mat3) (B1 B2 Co Ci : ℕ) : Mat :=
  (List.range Co).map fun o => (List.range Ci).map fun i =>
    ∑ b1 ∈ Finset.range B1, ∑ b2 ∈ Finset.range B2,
      ent3 dy b1 b2 o * ent3 x b1 b2 i

/-- Specification of the bias gradient, following the claim: `dy` summed
over all but the last axis, so the shape is `(Cout,)`. -/
def linear_db_spec (dy : Mat3) (B1 B2 Co : ℕ) : List ℚ :=
  (List.range Co).map fun o =>
    ∑ b1 ∈ Finset.range B1, ∑ b2 ∈ Finset.range B2, ent3 dy b1 b2 o

/-- The index tensor is a well-formed `B × T` integer matrix (the
embedding module constrains its input to rank 2). -/
def IsRectN (x : List (List ℕ)) (a b : ℕ) : Prop :=
  x.length = a ∧ ∀ i, i < a → (x.getD i []).length = b

instance (x : List (List ℕ)) (a b : ℕ) : Decidable (IsRectN x a b) := by
  unfold IsRectN; infer_instance

/-- All indices lie in `[0, V)`. -/
def IdxBound (x : List (List ℕ)) (V : ℕ) : Prop :=
  ∀ i, i < x.length → ∀ j, j < (x.getD i []).length →
    (x.getD i []).getD j 0 < V

instance (x : List (List ℕ)) (V : ℕ) : Decidable (IdxBound x V) := by
  unfold IdxBound; infer_instance

/-- Modelled from the spec: `one_hot_encode` maps every integer index to
the unit basis vector of the vocabulary length. -/
def one_hot_encode (x : List (List ℕ)) (V : ℕ) : Mat3 :=
  x.map fun r => r.map fun ix => (List.range V).map fun v =>
    if v = ix then (1 : ℚ) else 0

/-- Forward of `EmbeddingFn`: the gather `embedding_table[x]`, returning
the table row selected by each index (the source first validates that the
indices are of integer dtype, which the `ℕ` index type models). -/
def embedding_fwd (x : List (List ℕ)) (table : Mat) : Mat3 :=
  x.map fun r => r.map fun ix => table.getD ix []

/-- Forward of `lookup_embedding` in `functional.py`: the explicit
one-hot matmul gather `one_hot_encode(x, V) @ table`, the 2D table
broadcasting over the leading axis of the rank-3 one-hot tensor. -/
def lookup_embedding_fwd (x : List (List ℕ)) (table : Mat) : Mat3 :=
  (one_hot_encode x table.length).map fun m => matMul m table

/-- Backward of `EmbeddingFn`: one-hot encode the cached indices, batch
multiply `one_hot(x).T @ dy` (transpose of the two trailing axes) and sum
over `axes = range(n_axes - 2) = (0,)`, the leading axis of the rank-3
one-hot tensor. -/
def embedding_backward (x : List (List ℕ)) (V : ℕ) (dy : Mat3) : Mat :=
  sumMats (List.zipWith matMul ((one_hot_encode x V).map mtranspose) dy)

/-- Specification of the embedding table gradient, following the claim:
row `v` accumulates the incoming gradients of every occurrence of index
`v` over all batch positions, rows of unreferenced indices staying
zero. -/
def embedding_dgrad_spec (x : List (List ℕ)) (dy : Mat3) (B T V E : ℕ) :
    Mat :=
  (List.range V).map fun v => (List.range E).map fun e =>
    ∑ b ∈ Finset.range B, ∑ t ∈ Finset.range T,
      if v = (x.getD b []).getD t 0 then ent3 dy b t e else 0

theorem getD_lt {α : Type} (l : List α) (d : α) (i : ℕ) (h : i < l.length) :
    l.getD i d = l[i] := by
  simp [List.getD_eq_getElem?_getD, List.getElem?_eq_getElem h]

theorem getD_range_map {α : Type} (f : ℕ → α) (n i : ℕ) (d : α) (h : i < n) :
    ((List.range n).map f).getD i d = f i := by
  rw [List.getD_eq_getElem?_getD]
  simp [List.getElem?_range h]

theorem getD_map_of_lt {α β : Type} (f : α → β) (l : List α) (i : ℕ)
    (d : β) (d2 : α) (h : i < l.length) :
    (l.map f).getD i d = f (l.getD i d2) := by
  rw [List.getD_eq_getElem?_getD, getD_lt l d2 i h]
  simp [List.getElem?_eq_getElem h]

theorem getD_append_left {α : Type} (l₁ l₂ : List α) (i : ℕ) (d : α)
    (h : i < l₁.length) :
    (l₁ ++ l₂).getD i d = l₁.getD i d := by
  rw [List.getD_eq_getElem?_getD, List.getD_eq_getElem?_getD,
    List.getElem?_append, if_pos h]

theorem getD_append_right {α : Type} (l₁ l₂ : List α) (i : ℕ) (d : α)
    (h : l₁.length ≤ i) :
    (l₁ ++ l₂).getD i d = l₂.getD (i - l₁.length) d := by
  rw [List.getD_eq_getElem?_getD, List.getD_eq_getElem?_getD,
    List.getElem?_append_right h]

theorem getD_replicate_of_lt {α : Type} (a d : α) (n i : ℕ) (h : i < n) :
    (List.replicate n a).getD i d = a := by
  rw [List.getD_eq_getElem?_getD, List.getElem?_replicate_of_lt h]
  rfl

theorem headD_eq_getD {α : Type} (l : List α) (d : α) :
    l.headD d = l.getD 0 d := by
  cases l <;> simp

theorem IsRect_headD (A : Mat) (n m : ℕ) (h : IsRect A n m) (hn : 1 ≤ n) :
    (A.headD []).length = m := by
  rw [headD_eq_getD]
  exact h.2 0 hn

theorem IsRect_mem_length (A : Mat) (n m : ℕ) (h : IsRect A n m)
    (r : List ℚ) (hr : r ∈ A) : r.length = m := by
  obtain ⟨i, hi, rfl⟩ := List.mem_iff_getElem.mp hr
  have h2 := h.2 i (h.1 ▸ hi)
  rwa [getD_lt _ _ _ hi] at h2

theorem mem_repeatElems {α : Type} (l : List α) (n : ℕ) (a : α)
    (h : a ∈ repeatElems l n) : a ∈ l := by
  rw [repeatElems, List.mem_flatten] at h
  obtain ⟨s, hs, ha⟩ := h
  obtain ⟨b, hb, rfl⟩ := List.mem_map.mp hs
  rw [List.mem_replicate] at ha
  exact ha.2 ▸ hb

theorem repeatElems_cons {α : Type} (a : α) (t : List α) (n : ℕ) :
    repeatElems (a :: t) n = List.replicate n a ++ repeatElems t n := by
  simp [repeatElems]

theorem repeatElems_length {α : Type} (l : List α) (n : ℕ) :
    (repeatElems l n).length = l.length * n := by
  induction l with
  | nil => simp [repeatElems]
  | cons a t ih =>
      rw [repeatElems_cons, List.length_append, List.length_replicate, ih]
      simp
      ring

theorem repeatElems_getD {α : Type} (l : List α) (n i : ℕ) (d : α)
    (hn : 1 ≤ n) (hi : i < l.length * n) :
    (repeatElems l n).getD i d = l.getD (i / n) d := by
  induction l generalizing i with
  | nil => simp at hi
  | cons a t ih =>
      rw [repeatElems_cons]
      by_cases h : i < n
      · rw [getD_append_left _ _ _ _ (by simpa using h),
          getD_replicate_of_lt _ _ _ _ h, Nat.div_eq_of_lt h]
        rfl
      · push_neg at h
        rw [getD_append_right _ _ _ _ (by simpa using h)]
        have hmul : (a :: t).length * n = t.length * n + n := by
          rw [List.length_cons]; ring
        have hi2 : i - n < t.length * n := by
          rw [hmul] at hi; omega
        have hsub : i - (List.replicate n a).length = i - n := by simp
        rw [hsub, ih (i - n) hi2]
        have hdiv : i / n = (i - n) / n + 1 := by
          conv_lhs => rw [show i = (i - n) + n by omega]
          rw [Nat.add_div_right _ (by omega)]
        rw [hdiv]
        simp

theorem IsRect_rmap (g : ℕ → ℕ → ℚ) (n m : ℕ) :
    IsRect ((List.range n).map fun i => (List.range m).map fun j => g i j)
      n m := by
  constructor
  · simp
  · intro i hi
    rw [getD_range_map _ _ _ _ hi]
    simp

theorem ent_rmap (g : ℕ → ℕ → ℚ) (n m r c : ℕ) (hr : r < n) (hc : c < m) :
    ent ((List.range n).map fun i => (List.range m).map fun j => g i j) r c
      = g r c := by
  rw [ent, getD_range_map _ _ _ _ hr, getD_range_map _ _ _ _ hc]

theorem padToShape_spec (x : Mat) (n m H W : ℕ)
    (hx : IsRect x n m) (hH : n ≤ H) (hW : m ≤ W) :
    ∃ M, padToShape x (H, W) = some M ∧ IsRect M H W ∧
      ∀ r c : ℕ, r < H → c < W →
        ent M r c = if r < n ∧ c < m then ent x r c else 0 := by
  have hcond : x.length ≤ H ∧ ∀ r ∈ x, r.length ≤ W := by
    refine ⟨hx.1 ▸ hH, fun r hr => ?_⟩
    rw [IsRect_mem_length x n m hx r hr]
    exact hW
  rw [padToShape, if_pos hcond]
  set P := (x.map fun r => r ++ List.replicate (W - r.length) 0)
    ++ List.replicate (H - x.length) (List.replicate W 0) with hP
  have hmaplen : (x.map fun r => r ++ List.replicate (W - r.length) 0).length
      = n := by simp [hx.1]
  have hrowlen : ∀ i, i < H → (P.getD i []).length = W := by
    intro i hi
    by_cases h : i < n
    · rw [hP, getD_append_left _ _ _ _ (by rw [hmaplen]; exact h),
        getD_map_of_lt _ _ _ _ [] (by rw [hx.1]; exact h)]
      rw [List.length_append, List.length_replicate, hx.2 i h]
      omega
    · rw [hP, getD_append_right _ _ _ _ (by rw [hmaplen]; omega),
        hmaplen, getD_replicate_of_lt _ _ _ _ (by rw [hx.1]; omega)]
      simp
  refine ⟨P, rfl, ⟨by rw [hP]; simp [hx.1]; omega, hrowlen⟩, ?_⟩
  intro r c hr hc
  by_cases hrn : r < n
  · rw [ent, hP, getD_append_left _ _ _ _ (by rw [hmaplen]; exact hrn),
      getD_map_of_lt _ _ _ _ [] (by rw [hx.1]; exact hrn)]
    by_cases hcm : c < m
    · rw [getD_append_left _ _ _ _ (by rw [hx.2 r hrn]; exact hcm),
        if_pos ⟨hrn, hcm⟩, ent]
    · rw [getD_append_right _ _ _ _ (by rw [hx.2 r hrn]; omega),
        getD_replicate_of_lt _ _ _ _ (by rw [hx.2 r hrn]; omega),
        if_neg (by omega)]
  · rw [ent, hP, getD_append_right _ _ _ _ (by rw [hmaplen]; omega), hmaplen,
      getD_replicate_of_lt _ _ _ _ (by rw [hx.1]; omega),
      getD_replicate_of_lt _ _ _ _ hc, if_neg (by omega)]

theorem upsample2d_square (x : Mat) (h w k H W : ℕ)
    (hx : IsRect x h w) (hk : 1 ≤ k) (hH : h * k ≤ H) (hW : w * k ≤ W) :
    ∃ M, upsample2d x (k, k) (H, W) = some M ∧ IsRect M H W ∧
      ∀ r c : ℕ, r < H → c < W →
        ent M r c
          = if r < h * k ∧ c < w * k then ent x (r / k) (c / k) else 0 := by
  have hx1len : (x.map fun r => repeatElems r k).length = h := by simp [hx.1]
  have hx1 : IsRect (x.map fun r => repeatElems r k) h (w * k) := by
    refine ⟨hx1len, fun i hi => ?_⟩
    rw [getD_map_of_lt _ _ _ _ [] (by rw [hx.1]; exact hi),
      repeatElems_length, hx.2 i hi]
  set y := upsample2d_rep x (k, k) with hy
  have hyis : y = repeatElems (x.map fun r => repeatElems r k) k := by
    rw [hy, upsample2d_rep]
  have hylen : y.length = h * k := by
    rw [hyis, repeatElems_length, hx1len]
  have hyrect : IsRect y (h * k) (w * k) := by
    refine ⟨hylen, fun r hr => ?_⟩
    rw [hyis, repeatElems_getD _ _ _ _ hk (by rw [hx1len]; exact hr)]
    exact hx1.2 (r / k) ((Nat.div_lt_iff_lt_mul (by omega)).mpr hr)
  have hyent : ∀ r c, r < h * k → c < w * k →
      ent y r c = ent x (r / k) (c / k) := by
    intro r c hr hc
    have hrk : r / k < h := (Nat.div_lt_iff_lt_mul (by omega)).mpr hr
    rw [ent, hyis, repeatElems_getD _ _ _ _ hk (by rw [hx1len]; exact hr),
      getD_map_of_lt _ _ _ _ [] (by rw [hx.1]; exact hrk),
      repeatElems_getD _ _ _ _ hk (by rw [hx.2 (r / k) hrk]; exact hc), ent]
  by_cases hcase : ((y.length, (y.headD []).length) = (H, W))
  · rw [upsample2d, ← hy, if_pos hcase]
    have h1 : y.length = H := congrArg Prod.fst hcase
    have h2 : (y.headD []).length = W := congrArg Prod.snd hcase
    have hHhk : H = h * k := by rw [← h1, hylen]
    refine ⟨y, rfl, ⟨h1, fun i hi => ?_⟩, fun r c hr hc => ?_⟩
    · have hi2 : i < h * k := by omega
      rw [hyrect.2 i hi2, ← h2,
        IsRect_headD y (h * k) (w * k) hyrect (by omega)]
    · have hr2 : r < h * k := by omega
      have hWwk : W = w * k := by
        rw [← h2, IsRect_headD y (h * k) (w * k) hyrect (by omega)]
      have hc2 : c < w * k := by omega
      rw [hyent r c hr2 hc2, if_pos ⟨hr2, hc2⟩]
  · rw [upsample2d, ← hy, if_neg hcase]
    obtain ⟨M, hM, hMrect, hMent⟩ :=
      padToShape_spec y (h * k) (w * k) H W hyrect (by omega) (by omega)
    refine ⟨M, hM, hMrect, fun r c hr hc => ?_⟩
    rw [hMent r c hr hc]
    by_cases hin : r < h * k ∧ c < w * k
    · rw [if_pos hin, if_pos hin, hyent r c hin.1 hin.2]
    · rw [if_neg hin, if_neg hin]

theorem mem_getD {α : Type} (L : List α) (v : α) (d : α) (h : v ∈ L) :
    ∃ i, i < L.length ∧ v = L.getD i d := by
  obtain ⟨i, hi, rfl⟩ := List.mem_iff_getElem.mp h
  exact ⟨i, hi, (getD_lt L d i hi).symm⟩

theorem list_sum_to_finset {α : Type} (L : List α) (f : α → ℚ) (d : α) :
    (L.map f).sum = ∑ i ∈ Finset.range L.length, f (L.getD i d) := by
  induction L with
  | nil => simp
  | cons a L ih =>
      rw [List.map_cons, List.sum_cons, List.length_cons,
        Finset.sum_range_succ']
      simp only [List.getD_cons_succ, List.getD_cons_zero]
      rw [ih]
      exact add_comm _ _

theorem dot_eq_sum (u v : List ℚ) (h : v.length = u.length) :
    dot u v = ∑ t ∈ Finset.range u.length, u.getD t 0 * v.getD t 0 := by
  induction u generalizing v with
  | nil => simp [dot]
  | cons a u ih =>
      cases v with
      | nil => simp at h
      | cons b v =>
          have h2 : v.length = u.length := by simpa using h
          have step : dot (a :: u) (b :: v) = a * b + dot u v := by
            simp [dot]
          rw [step, ih v h2, List.length_cons, Finset.sum_range_succ']
          simp only [List.getD_cons_succ, List.getD_cons_zero]
          exact add_comm _ _

theorem getD_zipWith {α β γ : Type} (f : α → β → γ) (a : List α)
    (b : List β) (i : ℕ) (da : α) (db : β) (dc : γ)
    (h1 : i < a.length) (h2 : i < b.length) :
    (List.zipWith f a b).getD i dc = f (a.getD i da) (b.getD i db) := by
  induction a generalizing b i with
  | nil => simp at h1
  | cons x a ih =>
      cases b with
      | nil => simp at h2
      | cons y b =>
          cases i with
          | zero => rfl
          | succ i =>
              simp only [List.zipWith_cons_cons, List.getD_cons_succ]
              exact ih b i (by simpa using h1) (by simpa using h2)

theorem mtranspose_rect_ent (A : Mat) (n m : ℕ) (hA : IsRect A n m)
    (hn : 1 ≤ n) :
    IsRect (mtranspose A) m n ∧
    ∀ j i, j < m → i < n → ent (mtranspose A) j i = ent A i j := by
  have hh : (A.headD []).length = m := IsRect_headD A n m hA hn
  constructor
  · constructor
    · rw [mtranspose, hh]; simp
    · intro j hj
      rw [mtranspose, hh, getD_range_map _ _ _ _ hj, List.length_map, hA.1]
  · intro j i hj hi
    rw [ent, mtranspose, hh, getD_range_map _ _ _ _ hj,
      getD_map_of_lt _ _ _ _ [] (by rw [hA.1]; exact hi)]
    rfl

theorem matMul_rect (A B : Mat) (n kk m : ℕ) (hA : IsRect A n kk)
    (hB : IsRect B kk m) (hk : 1 ≤ kk) : IsRect (matMul A B) n m := by
  constructor
  · simp [matMul, hA.1]
  · intro i hi
    rw [matMul, getD_map_of_lt _ _ _ _ [] (by rw [hA.1]; exact hi),
      List.length_map, mtranspose, List.length_map, List.length_range,
      IsRect_headD B kk m hB hk]

theorem matMul_ent (A B : Mat) (n kk m : ℕ) (hA : IsRect A n kk)
    (hB : IsRect B kk m) (hk : 1 ≤ kk) (i j : ℕ) (hi : i < n) (hj : j < m) :
    ent (matMul A B) i j
      = ∑ t ∈ Finset.range kk, ent A i t * ent B t j := by
  have hBh : (B.headD []).length = m := IsRect_headD B kk m hB hk
  have hmtl : (mtranspose B).length = m := by
    rw [mtranspose, hBh]; simp
  have hcol : (mtranspose B).getD j [] = B.map fun r => r.getD j 0 := by
    rw [mtranspose, hBh, getD_range_map _ _ _ _ hj]
  rw [ent, matMul, getD_map_of_lt _ _ _ _ [] (by rw [hA.1]; exact hi),
    getD_map_of_lt _ _ _ _ [] (by rw [hmtl]; exact hj), hcol,
    dot_eq_sum _ _ (by rw [List.length_map, hB.1, hA.2 i hi]),
    hA.2 i hi]
  apply Finset.sum_congr rfl
  intro t ht
  rw [getD_map_of_lt _ _ _ _ [] (by rw [hB.1]; exact List.mem_range.mp ht)]
  rfl

theorem matAdd_rect_ent (A B : Mat) (n m : ℕ) (hA : IsRect A n m)
    (hB : IsRect B n m) :
    IsRect (matAdd A B) n m ∧
    ∀ i j, i < n → j < m → ent (matAdd A B) i j = ent A i j + ent B i j := by
  constructor
  · constructor
    · rw [matAdd, List.length_zipWith, hA.1, hB.1]
      omega
    · intro i hi
      rw [matAdd,
        getD_zipWith _ _ _ _ [] [] [] (by rw [hA.1]; exact hi)
          (by rw [hB.1]; exact hi),
        List.length_zipWith, hA.2 i hi, hB.2 i hi]
      omega
  · intro i j hi hj
    rw [ent, matAdd,
      getD_zipWith _ _ _ _ [] [] [] (by rw [hA.1]; exact hi)
        (by rw [hB.1]; exact hi),
      getD_zipWith _ _ _ _ 0 0 0 (by rw [hA.2 i hi]; exact hj)
        (by rw [hB.2 i hi]; exact hj)]
    rfl

theorem foldl_matAdd_spec (Ms : Mat3) (acc : Mat) (n m : ℕ)
    (hacc : IsRect acc n m) (hMs : ∀ M ∈ Ms, IsRect M n m) :
    IsRect (Ms.foldl matAdd acc) n m ∧
    ∀ i j, i < n → j < m →
      ent (Ms.foldl matAdd acc) i j
        = ent acc i j + (Ms.map fun M => ent M i j).sum := by
  induction Ms generalizing acc with
  | nil => exact ⟨hacc, fun i j hi hj => by simp⟩
  | cons M Ms ih =>
      have hM : IsRect M n m := hMs M (by simp)
      have h1 := matAdd_rect_ent acc M n m hacc hM
      obtain ⟨hrect, hent⟩ :=
        ih (matAdd acc M) h1.1 (fun M2 hM2 => hMs M2 (by simp [hM2]))
      refine ⟨hrect, fun i j hi hj => ?_⟩
      rw [List.foldl_cons, hent i j hi hj, h1.2 i j hi hj, List.map_cons,
        List.sum_cons]
      ring

theorem sumMats_spec (L : Mat3) (n m : ℕ) (hL : ∀ M ∈ L, IsRect M n m)
    (hne : L ≠ []) :
    IsRect (sumMats L) n m ∧
    ∀ i j, i < n → j < m →
      ent (sumMats L) i j = (L.map fun M => ent M i j).sum := by
  cases L with
  | nil => exact absurd rfl hne
  | cons M Ms =>
      obtain ⟨hrect, hent⟩ := foldl_matAdd_spec Ms M n m (hL M (by simp))
        (fun M2 h2 => hL M2 (by simp [h2]))
      refine ⟨hrect, fun i j hi hj => ?_⟩
      rw [sumMats, hent i j hi hj, List.map_cons, List.sum_cons]

theorem foldl_vecAdd_spec (vs : Mat) (acc : List ℚ) (m : ℕ)
    (hacc : acc.length = m) (hvs : ∀ v ∈ vs, v.length = m) :
    (vs.foldl vecAdd acc).length = m ∧
    ∀ j, j < m →
      (vs.foldl vecAdd acc).getD j 0
        = acc.getD j 0 + (vs.map fun v => v.getD j 0).sum := by
  induction vs generalizing acc with
  | nil => exact ⟨hacc, fun j hj => by simp⟩
  | cons v vs ih =>
      have hv : v.length = m := hvs v (by simp)
      have hlen : (vecAdd acc v).length = m := by
        rw [vecAdd, List.length_zipWith, hacc, hv]
        omega
      have hadd : ∀ j, j < m →
          (vecAdd acc v).getD j 0 = acc.getD j 0 + v.getD j 0 := by
        intro j hj
        rw [vecAdd, getD_zipWith _ _ _ _ 0 0 0 (by omega) (by omega)]
      obtain ⟨hrect, hent⟩ :=
        ih (vecAdd acc v) hlen (fun v2 h2 => hvs v2 (by simp [h2]))
      refine ⟨hrect, fun j hj => ?_⟩
      rw [List.foldl_cons, hent j hj, hadd j hj, List.map_cons, List.sum_cons]
      ring

theorem sumRows_spec (L : Mat) (m : ℕ) (hL : ∀ v ∈ L, v.length = m)
    (hne : L ≠ []) :
    (sumRows L).length = m ∧
    ∀ j, j < m → (sumRows L).getD j 0 = (L.map fun v => v.getD j 0).sum := by
  cases L with
  | nil => exact absurd rfl hne
  | cons v vs =>
      obtain ⟨hrect, hent⟩ := foldl_vecAdd_spec vs v m (hL v (by simp))
        (fun v2 h2 => hL v2 (by simp [h2]))
      refine ⟨hrect, fun j hj => ?_⟩
      rw [sumRows, hent j hj, List.map_cons, List.sum_cons]

theorem sum_map_flatten (L : Mat3) (g : List ℚ → ℚ) :
    (L.flatten.map g).sum = (L.map fun M => (M.map g).sum).sum := by
  induction L with
  | nil => simp
  | cons M Ms ih =>
      rw [List.flatten_cons, List.map_append, List.sum_append, ih,
        List.map_cons, List.sum_cons]

theorem Vec_ext (u v : List ℚ) (m : ℕ) (hu : u.length = m)
    (hv : v.length = m) (h : ∀ j, j < m → u.getD j 0 = v.getD j 0) :
    u = v := by
  apply List.ext_getElem (by rw [hu, hv])
  intro i h1 h2
  have := h i (hu ▸ h1)
  rwa [getD_lt u 0 i h1, getD_lt v 0 i h2] at this

theorem Mat_ext (A B : Mat) (n m : ℕ) (hA : IsRect A n m)
    (hB : IsRect B n m)
    (h : ∀ i j, i < n → j < m → ent A i j = ent B i j) : A = B := by
  apply List.ext_getElem (by rw [hA.1, hB.1])
  intro i h1 h2
  have hi : i < n := hA.1 ▸ h1
  have hrA : A[i].length = m := by
    rw [← getD_lt A [] i h1]; exact hA.2 i hi
  have hrB : B[i].length = m := by
    rw [← getD_lt B [] i h2]; exact hB.2 i hi
  apply List.ext_getElem (by rw [hrA, hrB])
  intro j hj1 hj2
  have hj : j < m := hrA ▸ hj1
  have := h i j hi hj
  simp only [ent] at this
  rwa [getD_lt A [] i h1, getD_lt B [] i h2, getD_lt _ 0 j hj1,
    getD_lt _ 0 j hj2] at this

theorem Mat3_ext (A B : Mat3) (a : ℕ) (hA : A.length = a) (hB : B.length = a)
    (h : ∀ i, i < a → A.getD i [] = B.getD i []) : A = B := by
  apply List.ext_getElem (by rw [hA, hB])
  intro i h1 h2
  have := h i (hA ▸ h1)
  rwa [getD_lt A [] i h1, getD_lt B [] i h2] at this

theorem batched_tr_matmul_ent (P Q : Mat3) (B T U E : ℕ)
    (hP : IsCube P B T U) (hQ : IsCube Q B T E)
    (hB : 1 ≤ B) (hT : 1 ≤ T) :
    IsRect (sumMats (List.zipWith matMul (P.map mtranspose) Q)) U E ∧
    ∀ u e, u < U → e < E →
      ent (sumMats (List.zipWith matMul (P.map mtranspose) Q)) u e
        = ∑ b ∈ Finset.range B, ∑ t ∈ Finset.range T,
            ent3 P b t u * ent3 Q b t e := by
  set L := List.zipWith matMul (P.map mtranspose) Q with hLdef
  have hLlen : L.length = B := by
    rw [hLdef, List.length_zipWith, List.length_map, hP.1, hQ.1]
    omega
  have hLget : ∀ b, b < B →
      L.getD b [] = matMul (mtranspose (P.getD b [])) (Q.getD b []) := by
    intro b hb
    rw [hLdef,
      getD_zipWith _ _ _ _ [] [] []
        (by rw [List.length_map, hP.1]; exact hb) (by rw [hQ.1]; exact hb),
      getD_map_of_lt _ _ _ _ [] (by rw [hP.1]; exact hb)]
  have hslice : ∀ b, b < B →
      IsRect (matMul (mtranspose (P.getD b [])) (Q.getD b [])) U E ∧
      ∀ u e, u < U → e < E →
        ent (matMul (mtranspose (P.getD b [])) (Q.getD b [])) u e
          = ∑ t ∈ Finset.range T, ent3 P b t u * ent3 Q b t e := by
    intro b hb
    obtain ⟨htr, htre⟩ :=
      mtranspose_rect_ent (P.getD b []) T U (hP.2 b hb) hT
    constructor
    · exact matMul_rect _ _ U T E htr (hQ.2 b hb) hT
    · intro u e hu he
      rw [matMul_ent _ _ U T E htr (hQ.2 b hb) hT u e hu he]
      apply Finset.sum_congr rfl
      intro t ht
      rw [htre u t hu (List.mem_range.mp ht)]
      rfl
  have hLmem : ∀ M ∈ L, IsRect M U E := by
    intro M hM
    obtain ⟨b, hb, rfl⟩ := mem_getD L M [] hM
    rw [hLget b (hLlen ▸ hb)]
    exact (hslice b (hLlen ▸ hb)).1
  have hne : L ≠ [] := by
    intro hcon
    rw [hcon] at hLlen
    simp at hLlen
    omega
  obtain ⟨hrect, hent⟩ := sumMats_spec L U E hLmem hne
  refine ⟨hrect, fun u e hu he => ?_⟩
  rw [hent u e hu he, list_sum_to_finset _ _ [], hLlen]
  apply Finset.sum_congr rfl
  intro b hb
  rw [hLget b (List.mem_range.mp hb)]
  exact (hslice b (List.mem_range.mp hb)).2 u e hu he

/-- Claim C1 counterexample: for input length `L = 10`, filter length
`K = 2`, stride `S = 1` and dilation `D = 3` with `valid` padding, the
code produces 6 outputs (the dilated filter has length `3 * 2 - 1 = 5`),
while the claimed formula gives `(10 - (3 * (2 - 1) + 1)) / 1 + 1 = 7`. -/
theorem convolve1d_len_claim_cex :
    (convolve1d [1, 1, 1, 1, 1, 1, 1, 1, 1, 1] [1, 1]
        PadMode.valid 1 3).length = 6 ∧
    (10 - (3 * (2 - 1) + 1)) / 1 + 1 = 7 := by
  constructor
  · decide
  · decide

/-- Claim C1 (amended): with `valid` padding, stride `S ≥ 1` and dilation
`D ≥ 1`, `convolve1d` returns a last axis of length
`(L - K_d) / S + 1` where `K_d` is the dilated filter length:
`K` when `D = 1` and `D * K - 1` when `D ≥ 2` (the source dilates to
`D * K - 1`, so this matches the claimed `(L - (D*(K-1)+1)) / S + 1`
exactly when `D ≤ 2`). -/
theorem convolve1d_valid_length (x f : List ℚ) (s d : ℕ)
    (hs : 1 ≤ s) (hd : 1 ≤ d) (hf : 1 ≤ f.length)
    (hL : (if d = 1 then f.length else d * f.length - 1) ≤ x.length) :
    (convolve1d x f PadMode.valid s d).length
      = (x.length - (if d = 1 then f.length else d * f.length - 1)) / s + 1 := by
  have hdil : (if 1 < d then dilate1d f d else f).length
      = (if d = 1 then f.length else d * f.length - 1) := by
    rcases Nat.eq_or_lt_of_le hd with h1 | h1
    · simp [← h1]
    · have hne : d ≠ 1 := by omega
      simp [h1, dilate1d, hne]
  set K := if d = 1 then f.length else d * f.length - 1 with hK
  have hK1 : 1 ≤ K := by
    rw [hK]; split
    · exact hf
    · have h2 : 2 ≤ d := by omega
      have := Nat.mul_le_mul h2 hf
      omega
  rw [convolve1d]
  simp only [reduceIte, convolve1d_raw, strided, List.length_map, List.length_range,
    List.length_drop, hdil]
  have hcc : (circConv x (if 1 < d then dilate1d f d else f)).length
      = x.length := by simp [circConv]
  rw [hcc]
  have h1 : x.length - (K - 1) + s - 1 = (x.length - K) + s := by omega
  rw [h1, Nat.add_div_right _ (by omega)]

theorem convolve1d_valid_length_witness :
    1 ≤ 2 ∧ 1 ≤ 2 ∧ 1 ≤ ([2, 1] : List ℚ).length ∧
    (if (2 : ℕ) = 1 then ([2, 1] : List ℚ).length
      else 2 * ([2, 1] : List ℚ).length - 1)
      ≤ ([3, 1, 4, 1, 5, 9, 2, 6] : List ℚ).length ∧
    (convolve1d [3, 1, 4, 1, 5, 9, 2, 6] [2, 1] PadMode.valid 2 2).length = 3 :=
  ⟨by decide, by decide, by decide, by decide,
    convolve1d_valid_length [3, 1, 4, 1, 5, 9, 2, 6] [2, 1] 2 2
      (by decide) (by decide) (by decide) (by decide)⟩

/-- Claim C2 counterexample: dilating `[1, 2]` by factor `3` yields
`[1, 0, 0, 2, 0]`, of length `3 * 2 - 1 = 5`, not the claimed
`3 * (2 - 1) + 1 = 4`. -/
theorem dilate1d_len_claim_cex :
    dilate1d ([1, 2] : List ℚ) 3 = [1, 0, 0, 2, 0] ∧
    (dilate1d ([1, 2] : List ℚ) 3).length = 5 ∧ 3 * (2 - 1) + 1 = 4 := by
  decide

/-- Claim C2 (amended): for a dilation factor `d ≥ 2` the dilation forward
returns a trailing axis of length `d * n - 1` (not `d * (n - 1) + 1`; the
two agree only at `d = 2`), holding the original elements at the positions
that are multiples of `d` and zeros everywhere else; `FDilation2D` dilates
both trailing axes the same way, each axis to length `d * n - 1`, with
entry `(r, c)` holding the original value at `(r / d, c / d)` when `d`
divides both coordinates and `0` everywhere else. -/
theorem dilate_length_spec (x : List ℚ) (d i : ℕ) (y : Mat) (row : List ℚ)
    (r c : ℕ)
    (hd : 2 ≤ d) (hi : i < d * x.length - 1) (hrow : row ∈ dilate2d y (d, d))
    (hr : r < d * y.length - 1) (hc : c < d * (y.headD []).length - 1) :
    (dilate1d x d).length = d * x.length - 1 ∧
    (dilate1d x d).getD i 0 = (if i % d = 0 then x.getD (i / d) 0 else 0) ∧
    (dilate2d y (d, d)).length = d * y.length - 1 ∧
    row.length = d * (y.headD []).length - 1 ∧
    ent (dilate2d y (d, d)) r c
      = (if r % d = 0 ∧ c % d = 0 then ent y (r / d) (c / d) else 0) := by
  have hd1 : d ≠ 1 := by omega
  have hne : ¬ (((d, d) : ℕ × ℕ) = (1, 1)) := by
    simp [Prod.ext_iff]; omega
  have hexp : dilate2d y (d, d)
      = (List.range (d * y.length - 1)).map fun r2 =>
          (List.range (d * (y.headD []).length - 1)).map fun c2 =>
            if r2 % d = 0 ∧ c2 % d = 0 then ent y (r2 / d) (c2 / d) else 0 := by
    rw [dilate2d, if_neg hne]
  refine ⟨?_, ?_, ?_, ?_, ?_⟩
  · simp [dilate1d, hd1]
  · rw [dilate1d, if_neg hd1, getD_range_map _ _ _ _ hi]
  · rw [hexp]; simp
  · rw [hexp] at hrow
    obtain ⟨a, _, rfl⟩ := List.mem_map.mp hrow
    simp
  · rw [hexp, ent_rmap _ _ _ _ _ hr hc]

theorem dilate_length_spec_witness :
    2 ≤ 2 ∧ 1 < 2 * ([5, 6] : List ℚ).length - 1 ∧
    ([7, 0, 8] : List ℚ) ∈ dilate2d [[7, 8]] (2, 2) ∧
    0 < 2 * ([[7, 8]] : Mat).length - 1 ∧
    2 < 2 * (([[7, 8]] : Mat).headD []).length - 1 ∧
    ((dilate1d ([5, 6] : List ℚ) 2).length = 2 * ([5, 6] : List ℚ).length - 1 ∧
     (dilate1d ([5, 6] : List ℚ) 2).getD 1 0 =
       (if 1 % 2 = 0 then ([5, 6] : List ℚ).getD (1 / 2) 0 else 0) ∧
     (dilate2d [[7, 8]] (2, 2)).length = 2 * ([[7, 8]] : Mat).length - 1 ∧
     ([7, 0, 8] : List ℚ).length = 2 * (([[7, 8]] : Mat).headD []).length - 1 ∧
     ent (dilate2d [[7, 8]] (2, 2)) 0 2
       = (if 0 % 2 = 0 ∧ 2 % 2 = 0 then ent [[7, 8]] (0 / 2) (2 / 2) else 0)) :=
  ⟨by decide, by decide, by decide, by decide, by decide,
    dilate_length_spec [5, 6] 2 1 [[7, 8]] [7, 0, 8] 0 2 (by decide)
      (by decide) (by decide) (by decide) (by decide)⟩

/-- Claim C3: the asymmetric pad round trip fails in the code.  Padding
`[1, 2, 3]` by widths `(1, 2)` gives `[0, 1, 2, 3, 0, 0]`, but the backward
slice `dy[..., padding[0] : -padding[0]]` uses the before-width on both
ends and returns `[1, 2, 3, 0]`, not the original `[1, 2, 3]` (the 2D
sibling `FPad2D.backward` slices `padding[0][0] : -padding[0][1]`,
confirming the 1D slice is a slip).  The dilation round trip does hold:
`dilate1d_backward` recovers the input. -/
theorem pad1d_roundtrip_asym_eval :
    pad1d [1, 2, 3] (1, 2) = [0, 1, 2, 3, 0, 0] ∧
    pad1d_backward (1, 2) (pad1d [1, 2, 3] (1, 2)) = [1, 2, 3, 0] ∧
    dilate1d_backward 3 (dilate1d [1, 2, 3] 3) = [1, 2, 3] := by
  decide

/-- Claim C4: pad with all-zero widths and dilation with factor 1 are exact
identities in both directions: the source short-circuits on `(0, 0)` widths
and on `dilation = 1` before allocating anything, in forward and backward
alike. -/
theorem pad_dilate_identity_noop (x g : List ℚ) :
    pad1d x (0, 0) = x ∧ pad1d_backward (0, 0) g = g ∧
    dilate1d x 1 = x ∧ dilate1d_backward 1 g = g := by
  refine ⟨?_, ?_, ?_, ?_⟩ <;>
    simp [pad1d, pad1d_backward, dilate1d, dilate1d_backward]

theorem maxpooling2d_eq (x : Mat) (k : ℕ × ℕ) (H W : ℕ)
    (hx : IsRect x H W) (hH : 1 ≤ H) :
    maxpooling2d x k = (List.range (H / k.1)).map fun i =>
      (List.range (W / k.2)).map fun j => listMax (windowVals x k i j) := by
  rw [maxpooling2d, hx.1, IsRect_headD x H W hx hH]

theorem avgpooling2d_eq (x : Mat) (k : ℕ × ℕ) (H W : ℕ)
    (hx : IsRect x H W) (hH : 1 ≤ H) :
    avgpooling2d x k = (List.range (H / k.1)).map fun i =>
      (List.range (W / k.2)).map fun j =>
        (windowVals x k i j).sum / (k.1 * k.2 : ℚ) := by
  rw [avgpooling2d, hx.1, IsRect_headD x H W hx hH]

theorem window_index_lt (H k i a : ℕ) (hi : i < H / k)
    (ha : a < k) : i * k + a < H / k * k ∧ i * k + a < H := by
  have h2 : (i + 1) * k ≤ H / k * k := Nat.mul_le_mul_right k hi
  have hexp : (i + 1) * k = i * k + k := by ring
  have h3 : i * k + a < H / k * k := by omega
  exact ⟨h3, lt_of_lt_of_le h3 (Nat.div_mul_le_self H k)⟩

theorem window_index_div (k i a : ℕ) (hk : 1 ≤ k) (ha : a < k) :
    (i * k + a) / k = i := by
  rw [show i * k + a = a + i * k by ring,
    Nat.add_mul_div_right _ _ (by omega), Nat.div_eq_of_lt ha]
  omega

/-- Claim C6 counterexample: with the non-square kernel `(2, 3)` on a
`3 × 3` input whose single window has tied maxima `5` at positions
`(0, 0)` and `(0, 2)`, the backward routes the whole (nonzero) window
gradient `1` to position `(0, 0)` only: the swapped repeat axes of
`FUpsample2D` upsample the cached output to `[[5, 5, 0], …]`, so the
comparison mask misses the tied maximum at column 2. -/
theorem maxpool_tie_claim_cex :
    maxpooling2d [[5, 1, 5], [2, 3, 4], [0, 0, 0]] (2, 3) = [[5]] ∧
    maxpooling2d_backward [[5, 1, 5], [2, 3, 4], [0, 0, 0]] (2, 3) [[1]]
      = some [[1, 0, 0], [0, 0, 0], [0, 0, 0]] := by
  constructor
  · decide
  · decide

/-- Claim C6 (amended): for square kernels `(k, k)`, every position of a
pooling window whose value attains the window maximum (the cached forward
output at that window) receives the full incoming window gradient from
the backward pass — in particular all tied maxima receive it, not a
single winner.  (For non-square kernels the swapped repeat axes of
`FUpsample2D` break the comparison mask, see the counterexample.) -/
theorem maxpool_tie_square (x dy : Mat) (H W k i j a b : ℕ)
    (hx : IsRect x H W) (hk : 1 ≤ k)
    (hdy : IsRect dy (H / k) (W / k))
    (hi : i < H / k) (hj : j < W / k) (ha : a < k) (hb : b < k)
    (htie : ent x (i * k + a) (j * k + b) = ent (maxpooling2d x (k, k)) i j) :
    (maxpooling2d_backward x (k, k) dy).isSome = true ∧
    ent ((maxpooling2d_backward x (k, k) dy).getD []) (i * k + a) (j * k + b)
      = ent dy i j := by
  obtain ⟨hrtr, hrH⟩ := window_index_lt H k i a hi ha
  obtain ⟨hctr, hcW⟩ := window_index_lt W k j b hj hb
  have hH1 : 1 ≤ H := by omega
  set y := maxpooling2d x (k, k) with hy
  have hyrect : IsRect y (H / k) (W / k) := by
    rw [hy, maxpooling2d_eq x (k, k) H W hx hH1]
    exact IsRect_rmap _ _ _
  obtain ⟨Y, hY, hYrect, hYent⟩ :=
    upsample2d_square y (H / k) (W / k) k H W hyrect hk
      (Nat.div_mul_le_self H k) (Nat.div_mul_le_self W k)
  obtain ⟨D, hD, hDrect, hDent⟩ :=
    upsample2d_square dy (H / k) (W / k) k H W hdy hk
      (Nat.div_mul_le_self H k) (Nat.div_mul_le_self W k)
  have hbw : maxpooling2d_backward x (k, k) dy
      = some ((List.range H).map fun r => (List.range W).map fun c =>
          if ent x r c = ent Y r c then ent D r c else 0) := by
    rw [maxpooling2d_backward, hx.1, IsRect_headD x H W hx hH1, ← hy, hY, hD]
  have hin : i * k + a < H / k * k ∧ j * k + b < W / k * k := ⟨hrtr, hctr⟩
  constructor
  · rw [hbw]; rfl
  · rw [hbw, Option.getD_some, ent_rmap _ _ _ _ _ hrH hcW,
      hYent _ _ hrH hcW, hDent _ _ hrH hcW, if_pos hin,
      window_index_div k i a hk ha, window_index_div k j b hk hb,
      if_pos htie, if_pos hin]

theorem maxpool_tie_square_witness :
    IsRect [[1, 1], [0, 0]] 2 2 ∧ 1 ≤ 2 ∧ IsRect [[7]] (2 / 2) (2 / 2) ∧
    0 < 2 / 2 ∧ 0 < 2 / 2 ∧ 0 < 2 ∧ 1 < 2 ∧
    ent [[1, 1], [0, 0]] (0 * 2 + 0) (0 * 2 + 1)
      = ent (maxpooling2d [[1, 1], [0, 0]] (2, 2)) 0 0 ∧
    ((maxpooling2d_backward [[1, 1], [0, 0]] (2, 2) [[7]]).isSome = true ∧
     ent ((maxpooling2d_backward [[1, 1], [0, 0]] (2, 2) [[7]]).getD [])
       (0 * 2 + 0) (0 * 2 + 1) = ent [[7]] 0 0) :=
  ⟨by decide, by decide, by decide, by decide, by decide, by decide, by decide,
    by decide,
    maxpool_tie_square [[1, 1], [0, 0]] [[7]] 2 2 2 0 0 0 1
      (by decide) (by decide) (by decide) (by decide) (by decide) (by decide)
      (by decide) (by decide)⟩

/-- Claim C7 counterexample: with the non-square kernel `(2, 3)` on a
`3 × 3` input, row 2 is truncated (`3 / 2 * 2 = 2`), yet the backward
routes gradient `1` into the truncated position `(2, 0)`: the swapped
repeat axes of `FUpsample2D` upsample the `1 × 1` gradient to a `3 × 2`
extent instead of `2 × 3`, covering truncated rows. -/
theorem pool_trunc_claim_cex :
    maxpooling2d_backward [[5, 1, 2], [2, 3, 4], [5, 0, 0]] (2, 3) [[1]]
      = some [[1, 0, 0], [0, 0, 0], [1, 0, 0]] ∧
    3 / 2 * 2 ≤ 2 ∧
    ent [[1, 0, 0], [0, 0, 0], [1, 0, 0]] 2 0 = 1 := by
  refine ⟨?_, ?_, ?_⟩
  · decide
  · decide
  · decide

/-- Claim C7 (amended): for every kernel `(Kh, Kw)`, max- and avg-pooling
forward produce output of spatial shape `(H / Kh, W / Kw)`, and the output
depends only on the truncated region
`[0, H/Kh*Kh) × [0, W/Kw*Kw)` of the input; for square kernels
(`Kh = Kw`) the truncated positions receive exactly zero gradient from
both backward passes.  (For non-square kernels the swapped repeat axes of
`FUpsample2D` can route nonzero gradient into truncated positions, see
the counterexample.) -/
theorem pool_truncation_spec (x x2 dy : Mat) (H W Kh Kw r c : ℕ)
    (hx : IsRect x H W) (hx2 : IsRect x2 H W) (hH : 1 ≤ H) (_hW : 1 ≤ W)
    (hKh : 1 ≤ Kh) (hKw : 1 ≤ Kw)
    (hagree : ∀ r2, r2 < H / Kh * Kh → ∀ c2, c2 < W / Kw * Kw →
      ent x r2 c2 = ent x2 r2 c2)
    (hdy : IsRect dy (H / Kh) (W / Kw))
    (hr : r < H) (hc : c < W) (htr : H / Kh * Kh ≤ r ∨ W / Kw * Kw ≤ c) :
    IsRect (maxpooling2d x (Kh, Kw)) (H / Kh) (W / Kw) ∧
    IsRect (avgpooling2d x (Kh, Kw)) (H / Kh) (W / Kw) ∧
    maxpooling2d x (Kh, Kw) = maxpooling2d x2 (Kh, Kw) ∧
    avgpooling2d x (Kh, Kw) = avgpooling2d x2 (Kh, Kw) ∧
    (Kh = Kw →
      (maxpooling2d_backward x (Kh, Kw) dy).isSome = true ∧
      ent ((maxpooling2d_backward x (Kh, Kw) dy).getD []) r c = 0 ∧
      (avgpooling2d_backward (H, W) (Kh, Kw) dy).isSome = true ∧
      ent ((avgpooling2d_backward (H, W) (Kh, Kw) dy).getD []) r c = 0) := by
  have hwin : ∀ i j, i < H / Kh → j < W / Kw →
      windowVals x (Kh, Kw) i j = windowVals x2 (Kh, Kw) i j := by
    intro i j hi hj
    rw [windowVals, windowVals]
    congr 1
    apply List.map_congr_left
    intro a hA
    apply List.map_congr_left
    intro b hB
    exact hagree _ (window_index_lt H Kh i a hi (List.mem_range.mp hA)).1
      _ (window_index_lt W Kw j b hj (List.mem_range.mp hB)).1
  refine ⟨?_, ?_, ?_, ?_, ?_⟩
  · rw [maxpooling2d_eq x _ H W hx hH]
    exact IsRect_rmap _ _ _
  · rw [avgpooling2d_eq x _ H W hx hH]
    exact IsRect_rmap _ _ _
  · rw [maxpooling2d_eq x _ H W hx hH, maxpooling2d_eq x2 _ H W hx2 hH]
    apply List.map_congr_left
    intro i hi
    apply List.map_congr_left
    intro j hj
    rw [hwin i j (List.mem_range.mp hi) (List.mem_range.mp hj)]
  · rw [avgpooling2d_eq x _ H W hx hH, avgpooling2d_eq x2 _ H W hx2 hH]
    apply List.map_congr_left
    intro i hi
    apply List.map_congr_left
    intro j hj
    rw [hwin i j (List.mem_range.mp hi) (List.mem_range.mp hj)]
  · intro hKK
    subst hKK
    set y := maxpooling2d x (Kh, Kh) with hy
    have hyrect : IsRect y (H / Kh) (W / Kh) := by
      rw [hy, maxpooling2d_eq x (Kh, Kh) H W hx hH]
      exact IsRect_rmap _ _ _
    obtain ⟨Y, hY, hYrect, hYent⟩ :=
      upsample2d_square y (H / Kh) (W / Kh) Kh H W hyrect hKh
        (Nat.div_mul_le_self H Kh) (Nat.div_mul_le_self W Kh)
    obtain ⟨D, hD, hDrect, hDent⟩ :=
      upsample2d_square dy (H / Kh) (W / Kh) Kh H W hdy hKh
        (Nat.div_mul_le_self H Kh) (Nat.div_mul_le_self W Kh)
    have hbw : maxpooling2d_backward x (Kh, Kh) dy
        = some ((List.range H).map fun r => (List.range W).map fun c =>
            if ent x r c = ent Y r c then ent D r c else 0) := by
      rw [maxpooling2d_backward, hx.1, IsRect_headD x H W hx hH, ← hy, hY, hD]
    have hD0 : ent D r c = 0 := by
      rw [hDent _ _ hr hc, if_neg (by omega)]
    have habw : avgpooling2d_backward (H, W) (Kh, Kh) dy
        = some (D.map fun row => row.map fun v => v / (Kh * Kh : ℚ)) := by
      rw [avgpooling2d_backward, hD]
      rfl
    refine ⟨?_, ?_, ?_, ?_⟩
    · rw [hbw]; rfl
    · rw [hbw, Option.getD_some, ent_rmap _ _ _ _ _ hr hc, hD0, ite_self]
    · rw [habw]; rfl
    · rw [habw, Option.getD_some, ent,
        getD_map_of_lt _ _ _ _ [] (by rw [hDrect.1]; exact hr),
        getD_map_of_lt _ _ _ _ 0 (by rw [hDrect.2 r hr]; exact hc)]
      rw [ent] at hD0
      rw [hD0, zero_div]

theorem pool_truncation_spec_witness :
    IsRect [[1, 2, 3], [4, 5, 6], [7, 8, 9]] 3 3 ∧
    IsRect [[1, 2, 30], [4, 5, 60], [70, 80, 90]] 3 3 ∧
    1 ≤ 3 ∧ 1 ≤ 3 ∧ 1 ≤ 2 ∧ 1 ≤ 2 ∧
    (∀ r2, r2 < 3 / 2 * 2 → ∀ c2, c2 < 3 / 2 * 2 →
      ent [[1, 2, 3], [4, 5, 6], [7, 8, 9]] r2 c2
        = ent [[1, 2, 30], [4, 5, 60], [70, 80, 90]] r2 c2) ∧
    IsRect [[4]] (3 / 2) (3 / 2) ∧ 2 < 3 ∧ 0 < 3 ∧
    (3 / 2 * 2 ≤ 2 ∨ 3 / 2 * 2 ≤ 0) ∧
    (IsRect (maxpooling2d [[1, 2, 3], [4, 5, 6], [7, 8, 9]] (2, 2))
        (3 / 2) (3 / 2) ∧
     IsRect (avgpooling2d [[1, 2, 3], [4, 5, 6], [7, 8, 9]] (2, 2))
        (3 / 2) (3 / 2) ∧
     maxpooling2d [[1, 2, 3], [4, 5, 6], [7, 8, 9]] (2, 2)
        = maxpooling2d [[1, 2, 30], [4, 5, 60], [70, 80, 90]] (2, 2) ∧
     avgpooling2d [[1, 2, 3], [4, 5, 6], [7, 8, 9]] (2, 2)
        = avgpooling2d [[1, 2, 30], [4, 5, 60], [70, 80, 90]] (2, 2) ∧
     (2 = 2 →
       (maxpooling2d_backward [[1, 2, 3], [4, 5, 6], [7, 8, 9]] (2, 2)
           [[4]]).isSome = true ∧
       ent ((maxpooling2d_backward [[1, 2, 3], [4, 5, 6], [7, 8, 9]] (2, 2)
           [[4]]).getD []) 2 0 = 0 ∧
       (avgpooling2d_backward (3, 3) (2, 2) [[4]]).isSome = true ∧
       ent ((avgpooling2d_backward (3, 3) (2, 2) [[4]]).getD []) 2 0 = 0)) :=
  ⟨by decide, by decide, by decide, by decide, by decide, by decide, by decide,
    by decide, by decide, by decide, by decide,
    pool_truncation_spec [[1, 2, 3], [4, 5, 6], [7, 8, 9]]
      [[1, 2, 30], [4, 5, 60], [70, 80, 90]] [[4]] 3 3 2 2 2 0
      (by decide) (by decide) (by decide) (by decide) (by decide) (by decide)
      (by decide) (by decide) (by decide) (by decide) (by decide)⟩

/-- Claim C8: evaluation at the failing input.  For the `2 × 2` input
`[[1, 2], [3, 4]]` (spatial sizes exact multiples of the kernel `(1, 2)`,
with `Kh = 1 ≠ 2 = Kw`) the forward mean-pools correctly, but the
backward upsampling repeats the incoming gradient `Kh` times along the
width axis and `Kw` times along the height axis (swapped), producing a
`4 × 1` tensor that cannot be zero-padded to the `2 × 2` input shape: the
backward errors instead of assigning each position its window gradient
divided by `Kh * Kw`. -/
theorem avgpool_nonsquare_backward_eval :
    avgpooling2d [[1, 2], [3, 4]] (1, 2) = [[3 / 2], [7 / 2]] ∧
    avgpooling2d_backward (2, 2) (1, 2) [[3], [7]] = none := by
  constructor
  · norm_num [avgpooling2d, windowVals, ent, List.range_succ]
  · decide

/-- Claim C5: for a rank-3 input `x : (B1, B2, Cin)` with bias present,
the linear backward returns `dx = dy @ w` of the shape of `x`;
`dw = dyᵀ @ x` summed over the leading batch axis, of shape
`(Cout, Cin)` with entries accumulated over both batch axes; `db = dy`
summed over all but the last axis, of shape `(Cout,)`; and `dw`
(respectively `db`) is the absent value `none`, not a zero tensor, when
the weight (respectively the bias) does not require a gradient. -/
theorem linear_backward_spec (x dy : Mat3) (w : Mat)
    (B1 B2 Ci Co : ℕ) (w_req b_req : Bool)
    (hB1 : 1 ≤ B1) (hB2 : 1 ≤ B2) (_hCi : 1 ≤ Ci) (hCo : 1 ≤ Co)
    (hx : IsCube x B1 B2 Ci) (hw : IsRect w Co Ci)
    (hdy : IsCube dy B1 B2 Co) :
    (linear_backward x w w_req true b_req dy).1
      = linear_dx_spec dy w B1 B2 Ci Co ∧
    (linear_backward x w w_req true b_req dy).2.1
      = (if w_req then some (linear_dw_spec x dy B1 B2 Co Ci) else none) ∧
    (linear_backward x w w_req true b_req dy).2.2
      = (if b_req then some (linear_db_spec dy B1 B2 Co) else none) := by
  have hdx : (dy.map fun m => matMul m w)
      = linear_dx_spec dy w B1 B2 Ci Co := by
    apply Mat3_ext _ _ B1 (by simp [hdy.1]) (by simp [linear_dx_spec])
    intro b1 hb1
    rw [getD_map_of_lt _ _ _ _ [] (by rw [hdy.1]; exact hb1),
      linear_dx_spec, getD_range_map _ _ _ _ hb1]
    apply Mat_ext _ _ B2 Ci
      (matMul_rect _ _ B2 Co Ci (hdy.2 b1 hb1) hw hCo)
      (IsRect_rmap _ _ _)
    intro b2 i hb2 hi
    rw [matMul_ent _ _ B2 Co Ci (hdy.2 b1 hb1) hw hCo b2 i hb2 hi,
      ent_rmap _ _ _ _ _ hb2 hi]
    apply Finset.sum_congr rfl
    intro o _
    rfl
  have hdw : sumMats (List.zipWith matMul (dy.map mtranspose) x)
      = linear_dw_spec x dy B1 B2 Co Ci := by
    obtain ⟨hrect, hent⟩ :=
      batched_tr_matmul_ent dy x B1 B2 Co Ci hdy hx hB1 hB2
    apply Mat_ext _ _ Co Ci hrect (IsRect_rmap _ _ _)
    intro o i ho hi
    rw [hent o i ho hi, ent_rmap _ _ _ _ _ ho hi]
  have hdyne : dy ≠ [] := by
    intro hcon
    rw [hcon] at hdy
    have := hdy.1
    simp at this
    omega
  have hflatlen : ∀ v ∈ dy.flatten, v.length = Co := by
    intro v hv
    rw [List.mem_flatten] at hv
    obtain ⟨M, hM, hvM⟩ := hv
    obtain ⟨b1, hb1, rfl⟩ := mem_getD dy M [] hM
    exact IsRect_mem_length _ B2 Co (hdy.2 b1 (hdy.1 ▸ hb1)) v hvM
  have hflatne : dy.flatten ≠ [] := by
    cases dy with
    | nil => exact absurd rfl hdyne
    | cons M Ms =>
        have hM : IsRect M B2 Co := by
          have := hdy.2 0 (by omega)
          simpa using this
        have hMne : M ≠ [] := by
          intro hcon
          rw [hcon] at hM
          have := hM.1
          simp at this
          omega
        rw [List.flatten_cons]
        intro hcon
        rcases List.append_eq_nil.mp hcon with ⟨h1, _⟩
        exact hMne h1
  have hdb : sumRows dy.flatten = linear_db_spec dy B1 B2 Co := by
    obtain ⟨hlen, hent⟩ := sumRows_spec dy.flatten Co hflatlen hflatne
    apply Vec_ext _ _ Co hlen (by simp [linear_db_spec])
    intro o ho
    rw [hent o ho, linear_db_spec, getD_range_map _ _ _ _ ho,
      sum_map_flatten, list_sum_to_finset _ _ [], hdy.1]
    apply Finset.sum_congr rfl
    intro b1 hb1
    rw [list_sum_to_finset _ _ [], (hdy.2 b1 (List.mem_range.mp hb1)).1]
    apply Finset.sum_congr rfl
    intro b2 _
    rfl
  refine ⟨?_, ?_, ?_⟩
  · simpa only [linear_backward] using hdx
  · simp only [linear_backward]
    cases w_req with
    | false => simp
    | true => simp [hdw]
  · simp only [linear_backward]
    cases b_req with
    | false => simp
    | true => simp [hdb]

theorem linear_backward_spec_witness :
    1 ≤ 2 ∧ 1 ≤ 2 ∧ 1 ≤ 1 ∧ 1 ≤ 1 ∧
    IsCube [[[1], [2]], [[3], [4]]] 2 2 1 ∧ IsRect [[5]] 1 1 ∧
    IsCube [[[6], [7]], [[8], [9]]] 2 2 1 ∧
    ((linear_backward [[[1], [2]], [[3], [4]]] [[5]] true true true
        [[[6], [7]], [[8], [9]]]).1
      = linear_dx_spec [[[6], [7]], [[8], [9]]] [[5]] 2 2 1 1 ∧
     (linear_backward [[[1], [2]], [[3], [4]]] [[5]] true true true
        [[[6], [7]], [[8], [9]]]).2.1
      = (if true then some (linear_dw_spec [[[1], [2]], [[3], [4]]]
          [[[6], [7]], [[8], [9]]] 2 2 1 1) else none) ∧
     (linear_backward [[[1], [2]], [[3], [4]]] [[5]] true true true
        [[[6], [7]], [[8], [9]]]).2.2
      = (if true then some (linear_db_spec [[[6], [7]], [[8], [9]]] 2 2 1)
         else none)) :=
  ⟨by decide, by decide, by decide, by decide, by decide, by decide, by decide,
    linear_backward_spec [[[1], [2]], [[3], [4]]] [[[6], [7]], [[8], [9]]]
      [[5]] 2 2 1 1 true true (by decide) (by decide) (by decide) (by decide)
      (by decide) (by decide) (by decide)⟩

theorem one_hot_spec (x : List (List ℕ)) (B T V : ℕ) (hx : IsRectN x B T) :
    IsCube (one_hot_encode x V) B T V ∧
    ∀ b t v, b < B → t < T → v < V →
      ent3 (one_hot_encode x V) b t v
        = if v = (x.getD b []).getD t 0 then 1 else 0 := by
  constructor
  · constructor
    · simp [one_hot_encode, hx.1]
    · intro b hb
      rw [one_hot_encode, getD_map_of_lt _ _ _ _ [] (by rw [hx.1]; exact hb)]
      constructor
      · rw [List.length_map]
        exact hx.2 b hb
      · intro t ht2
        rw [getD_map_of_lt _ _ _ _ 0 (by rw [hx.2 b hb]; exact ht2)]
        simp
  · intro b t v hb ht2 hv
    rw [ent3, one_hot_encode,
      getD_map_of_lt _ _ _ _ [] (by rw [hx.1]; exact hb),
      getD_map_of_lt _ _ _ _ 0 (by rw [hx.2 b hb]; exact ht2),
      getD_range_map _ _ _ _ hv]

/-- Claim C9: for a rank-2 integer index tensor with indices in
`[0, V)` (the embedding module constrains its input to rank 2), the
gather forward of `EmbeddingFn` returns exactly the table rows selected
by the indices and coincides, tensorwise, with the explicit one-hot
matmul gather `one_hot(x, V) @ table` of `lookup_embedding`; the backward
equals the scatter matrix `one_hot(x)ᵀ @ dy` summed over the leading
batch axis, whose `(v, e)` entry accumulates the gradients of every
occurrence of index `v` (repeated indices accumulate, unreferenced rows
are zero sums). -/
theorem embedding_spec (x : List (List ℕ)) (table : Mat) (dy : Mat3)
    (B T V E : ℕ) (b t : ℕ)
    (hB : 1 ≤ B) (hT : 1 ≤ T) (hV : 1 ≤ V) (_hE : 1 ≤ E)
    (hx : IsRectN x B T) (ht : IsRect table V E) (hbound : IdxBound x V)
    (hdy : IsCube dy B T E) (hb : b < B) (htt : t < T) :
    embedding_fwd x table = lookup_embedding_fwd x table ∧
    ((embedding_fwd x table).getD b []).getD t []
      = table.getD ((x.getD b []).getD t 0) [] ∧
    embedding_backward x V dy = embedding_dgrad_spec x dy B T V E := by
  obtain ⟨hohcube, hohent⟩ := one_hot_spec x B T V hx
  have hVtab : table.length = V := ht.1
  have hixlt : ∀ b2 t2, b2 < B → t2 < T → (x.getD b2 []).getD t2 0 < V := by
    intro b2 t2 hb2 ht2
    exact hbound b2 (by rw [hx.1]; exact hb2) t2 (by rw [hx.2 b2 hb2]; exact ht2)
  have hfwd_cube : IsCube (embedding_fwd x table) B T E := by
    constructor
    · simp [embedding_fwd, hx.1]
    · intro b2 hb2
      rw [embedding_fwd, getD_map_of_lt _ _ _ _ [] (by rw [hx.1]; exact hb2)]
      constructor
      · rw [List.length_map]
        exact hx.2 b2 hb2
      · intro t2 ht2
        rw [getD_map_of_lt _ _ _ _ 0 (by rw [hx.2 b2 hb2]; exact ht2)]
        exact ht.2 _ (hixlt b2 t2 hb2 ht2)
  have hfwd_ent : ∀ b2 t2 e, b2 < B → t2 < T → e < E →
      ent3 (embedding_fwd x table) b2 t2 e
        = ent table ((x.getD b2 []).getD t2 0) e := by
    intro b2 t2 e hb2 ht2 _
    rw [ent3, embedding_fwd,
      getD_map_of_lt _ _ _ _ [] (by rw [hx.1]; exact hb2),
      getD_map_of_lt _ _ _ _ 0 (by rw [hx.2 b2 hb2]; exact ht2)]
    rfl
  have hlk_slice : ∀ b2, b2 < B →
      (lookup_embedding_fwd x table).getD b2 []
        = matMul ((one_hot_encode x V).getD b2 []) table := by
    intro b2 hb2
    rw [lookup_embedding_fwd, hVtab,
      getD_map_of_lt _ _ _ _ [] (by rw [hohcube.1]; exact hb2)]
  have hlk_ent : ∀ b2 t2 e, b2 < B → t2 < T → e < E →
      ent3 (lookup_embedding_fwd x table) b2 t2 e
        = ent table ((x.getD b2 []).getD t2 0) e := by
    intro b2 t2 e hb2 ht2 he
    have hix := hixlt b2 t2 hb2 ht2
    rw [ent3, hlk_slice b2 hb2]
    have h1 : ent (matMul ((one_hot_encode x V).getD b2 []) table) t2 e
        = ∑ v ∈ Finset.range V,
            ent ((one_hot_encode x V).getD b2 []) t2 v * ent table v e :=
      matMul_ent _ _ T V E (hohcube.2 b2 hb2) ht hV t2 e ht2 he
    rw [ent] at h1
    rw [h1]
    have h2 : ∀ v ∈ Finset.range V,
        ent ((one_hot_encode x V).getD b2 []) t2 v * ent table v e
          = if v = (x.getD b2 []).getD t2 0 then ent table v e else 0 := by
      intro v hv
      have := hohent b2 t2 v hb2 ht2 (List.mem_range.mp hv)
      rw [ent3] at this
      rw [show ent ((one_hot_encode x V).getD b2 []) t2 v
          = ((one_hot_encode x V).getD b2 [] |>.getD t2 []).getD v 0 from rfl,
        this]
      by_cases hc : v = (x.getD b2 []).getD t2 0 <;> simp [hc]
    rw [Finset.sum_congr rfl h2]
    rw [Finset.sum_ite_eq' (Finset.range V) _ fun v => ent table v e]
    rw [if_pos (Finset.mem_range.mpr hix)]
  have hfwd : embedding_fwd x table = lookup_embedding_fwd x table := by
    have hlk_cube : IsCube (lookup_embedding_fwd x table) B T E := by
      constructor
      · simp [lookup_embedding_fwd, one_hot_encode, hx.1]
      · intro b2 hb2
        rw [hlk_slice b2 hb2]
        exact matMul_rect _ _ T V E (hohcube.2 b2 hb2) ht hV
    apply Mat3_ext _ _ B hfwd_cube.1 hlk_cube.1
    intro b2 hb2
    apply Mat_ext _ _ T E (hfwd_cube.2 b2 hb2) (hlk_cube.2 b2 hb2)
    intro t2 e ht2 he
    have ha := hfwd_ent b2 t2 e hb2 ht2 he
    have hbb := hlk_ent b2 t2 e hb2 ht2 he
    rw [ent3] at ha hbb
    rw [show ent ((embedding_fwd x table).getD b2 []) t2 e
        = ((embedding_fwd x table).getD b2 [] |>.getD t2 []).getD e 0
        from rfl, ha,
      show ent ((lookup_embedding_fwd x table).getD b2 []) t2 e
        = ((lookup_embedding_fwd x table).getD b2 [] |>.getD t2 []).getD e 0
        from rfl, hbb]
  refine ⟨hfwd, ?_, ?_⟩
  · rw [embedding_fwd, getD_map_of_lt _ _ _ _ [] (by rw [hx.1]; exact hb),
      getD_map_of_lt _ _ _ _ 0 (by rw [hx.2 b hb]; exact htt)]
  · obtain ⟨hrect, hent⟩ :=
      batched_tr_matmul_ent (one_hot_encode x V) dy B T V E hohcube hdy hB hT
    apply Mat_ext _ _ V E hrect (IsRect_rmap _ _ _)
    intro v e hv he
    rw [hent v e hv he, ent_rmap _ _ _ _ _ hv he]
    apply Finset.sum_congr rfl
    intro b2 hb2
    apply Finset.sum_congr rfl
    intro t2 ht2
    rw [hohent b2 t2 v (List.mem_range.mp hb2) (List.mem_range.mp ht2) hv]
    by_cases hc : v = (x.getD b2 []).getD t2 0 <;> simp [hc]

theorem embedding_spec_witness :
    1 ≤ 1 ∧ 1 ≤ 3 ∧ 1 ≤ 3 ∧ 1 ≤ 2 ∧
    IsRectN [[0, 2, 1]] 1 3 ∧
    IsRect [[1, 2], [3, 4], [5, 6]] 3 2 ∧
    IdxBound [[0, 2, 1]] 3 ∧
    IsCube [[[10, 20], [30, 40], [50, 60]]] 1 3 2 ∧
    0 < 1 ∧ 1 < 3 ∧
    (embedding_fwd [[0, 2, 1]] [[1, 2], [3, 4], [5, 6]]
        = lookup_embedding_fwd [[0, 2, 1]] [[1, 2], [3, 4], [5, 6]] ∧
     ((embedding_fwd [[0, 2, 1]] [[1, 2], [3, 4], [5, 6]]).getD 0 []).getD 1 []
        = ([[1, 2], [3, 4], [5, 6]] : Mat).getD
            ((([[0, 2, 1]] : List (List ℕ)).getD 0 []).getD 1 0) [] ∧
     embedding_backward [[0, 2, 1]] 3 [[[10, 20], [30, 40], [50, 60]]]
        = embedding_dgrad_spec [[0, 2, 1]] [[[10, 20], [30, 40], [50, 60]]]
            1 3 3 2) :=
  ⟨by decide, by decide, by decide, by decide, by decide, by decide, by decide,
    by decide, by decide, by decide,
    embedding_spec [[0, 2, 1]] [[1, 2], [3, 4], [5, 6]]
      [[[10, 20], [30, 40], [50, 60]]] 1 3 3 2 0 1 (by decide) (by decide)
      (by decide) (by decide) (by decide) (by decide) (by decide) (by decide)
      (by decide) (by decide)⟩

/-- Claim C10: temperature softmax at temperature 1 returns exactly the
same tensor as softmax, for any elementwise exponential primitive and any
input fiber. -/
theorem temperature_softmax_one (e : ℚ → ℚ) (x : List ℚ) :
    temperature_softmax e x 1 = some (softmax e x) := by
  simp [temperature_softmax, softmax]

